import Mathlib

/-!
Verification of the quorum policy evaluator (`common/quorum.go`) and the
replicated-log range-read contract (`keyserver/replication/replication.go`)
of the coname repository, via a shallow embedding in Lean 4.

Go `uint64` values are modelled as `Nat`: the only arithmetic performed on
them is the guarded decrement of the `remaining` counter, which never
underflows because the loops return as soon as it reaches zero, and the
byte-size additions in `GetCommitted`, which only grow.
The Go map `map[uint64]struct{}` (a set of verifier ids) is modelled as a
`Finset Nat`.
-/

/-- Embedding of `proto.QuorumExpr`: a threshold policy tree over verifier ids. -/
structure QuorumExpr where
  threshold : Nat
  verifiers : List Nat
  subexpressions : List QuorumExpr

/-- The first loop of `CheckQuorum`: scan `verifiers`, decrementing
`remaining` for each one present in `have`.  Returns `none` when the
threshold was reached (the Go code returns `true` there), and
`some remaining` with the leftover counter otherwise.  Only reached with
`remaining ≠ 0`. -/
def loopVerifiers (hv : Finset Nat) : List Nat → Nat → Option Nat
  | [], remaining => some remaining
  | v :: vs, remaining =>
    if v ∈ hv then
      if remaining - 1 = 0 then none
      else loopVerifiers hv vs (remaining - 1)
    else loopVerifiers hv vs remaining

mutual

/-- Embedding of `common.CheckQuorum`: evaluates whether the quorum
requirement can be satisfied by ratifications of the verifiers in `hv`. -/
def CheckQuorum : QuorumExpr → Finset Nat → Bool
  | ⟨threshold, verifiers, subexpressions⟩, hv =>
    if threshold = 0 then true
    else
      match loopVerifiers hv verifiers threshold with
      | none => true
      | some remaining => loopSubexprs hv subexpressions remaining
termination_by e _ => sizeOf e

/-- The second loop of `CheckQuorum`: scan `subexpressions`, decrementing
`remaining` for each recursively satisfied one; `true` iff the counter
reaches zero.  Only reached with `remaining ≠ 0`. -/
def loopSubexprs (hv : Finset Nat) : List QuorumExpr → Nat → Bool
  | [], _ => false
  | e :: es, remaining =>
    if CheckQuorum e hv then
      if remaining - 1 = 0 then true
      else loopSubexprs hv es (remaining - 1)
    else loopSubexprs hv es remaining
termination_by es _ => sizeOf es

end

/-- Number of entries of `vs` (counted with multiplicity) present in `hv`. -/
def countPresent (hv : Finset Nat) (vs : List Nat) : Nat :=
  vs.countP (fun v => decide (v ∈ hv))

/-- Number of entries of `subs` satisfied under `hv`. -/
def countSat (hv : Finset Nat) (subs : List QuorumExpr) : Nat :=
  subs.countP (fun e => CheckQuorum e hv)

mutual

/-- Reference (non-short-circuiting) satisfaction, written from the spec:
an expression is satisfied iff the number of entries of its `verifiers`
present in `hv` plus the number of its subexpressions recursively
satisfying this same definition is at least its `threshold`. -/
def SatisfiesRef : QuorumExpr → Finset Nat → Bool
  | ⟨threshold, verifiers, subexpressions⟩, hv =>
    decide (threshold ≤
      verifiers.countP (fun v => decide (v ∈ hv)) + countSatRef hv subexpressions)
termination_by e _ => sizeOf e

/-- The number of expressions of `subs` satisfied according to
`SatisfiesRef` (evaluating every element, no short-circuit). -/
def countSatRef (hv : Finset Nat) : List QuorumExpr → Nat
  | [] => 0
  | e :: es => (if SatisfiesRef e hv then 1 else 0) + countSatRef hv es
termination_by es => sizeOf es

end

/-- The verifier-insertion loop of `ListQuorum`: `out[verifier] = struct{}{}`
for each entry of the `Verifiers` list. -/
def insertVerifiers : List Nat → Finset Nat → Finset Nat
  | [], out => out
  | v :: vs, out => insertVerifiers vs (insert v out)

mutual

/-- Embedding of `common.ListQuorum`: inserts all verifiers mentioned in
the expression into `out`.
The Go `nil` map argument is modelled by passing `∅` (the freshly allocated
empty map of the `out == nil` branch). -/
def ListQuorum : QuorumExpr → Finset Nat → Finset Nat
  | ⟨_, verifiers, subexpressions⟩, out =>
    listQuorumSubs subexpressions (insertVerifiers verifiers out)
termination_by e _ => sizeOf e

/-- The subexpression loop of `ListQuorum`: recurse into each
subexpression with the same accumulator. -/
def listQuorumSubs : List QuorumExpr → Finset Nat → Finset Nat
  | [], out => out
  | e :: es, out => listQuorumSubs es (ListQuorum e out)
termination_by es _ => sizeOf es

end

mutual

/-- The set of all verifier ids appearing in the `verifiers` list of the
expression or of any of its subexpressions, at any nesting depth. -/
def allVerifiers : QuorumExpr → Finset Nat
  | ⟨_, verifiers, subexpressions⟩ =>
    verifiers.toFinset ∪ allVerifiersList subexpressions
termination_by e => sizeOf e

/-- Union of `allVerifiers` over a list of expressions. -/
def allVerifiersList : List QuorumExpr → Finset Nat
  | [] => ∅
  | e :: es => allVerifiers e ∪ allVerifiersList es
termination_by es => sizeOf es

end

/-- Modelled from the spec: the size-bounded continuation of `GetCommitted`
after the mandatory first entry.  `used` is the cumulative byte size
returned so far; an entry is added only while the cumulative size stays
within `maxSize`, and scanning stops at the first entry that would exceed
it. -/
def takeBounded (maxSize : Nat) : List (List Nat) → Nat → List (List Nat)
  | [], _ => []
  | e :: es, used =>
    if used + e.length ≤ maxSize then e :: takeBounded maxSize es (used + e.length)
    else []

/-- Modelled from the spec: `LogReplicator.GetCommitted` is declared in
`keyserver/replication/replication.go` only as an interface method; no
implementation is under src.  The committed log is modelled as a list of
entries (an entry is a list of bytes; its byte size is its length), the
committed entries being those at indices below `log.length`.  Per the
contract: return entries starting exactly at index `lo`, strictly below
`hi`, consecutive; the first entry in range is always returned even when
it alone exceeds `maxSize`; afterwards entries are added only while the
cumulative byte size stays within `maxSize`. -/
def getCommitted (log : List (List Nat)) (lo hi maxSize : Nat) : List (List Nat) :=
  match (log.take hi).drop lo with
  | [] => []
  | first :: rest => first :: takeBounded maxSize rest first.length

lemma loopVerifiers_eq (hv : Finset Nat) :
    ∀ (vs : List Nat) (r : Nat), r ≠ 0 →
      loopVerifiers hv vs r =
        if r ≤ countPresent hv vs then none else some (r - countPresent hv vs) := by
  intro vs
  induction vs with
  | nil =>
    intro r hr
    simp only [loopVerifiers, countPresent, List.countP_nil]
    rw [if_neg (by omega)]
    simp
  | cons v vs ih =>
    intro r hr
    simp only [loopVerifiers, countPresent, List.countP_cons] at *
    by_cases hmem : v ∈ hv
    · rw [if_pos hmem]
      by_cases hr1 : r - 1 = 0
      · rw [if_pos hr1, if_pos (by simp [hmem]; omega)]
      · rw [if_neg hr1, ih (r - 1) hr1]
        have hcp : (List.countP (fun v => decide (v ∈ hv)) (v :: vs)) =
            List.countP (fun v => decide (v ∈ hv)) vs + 1 := by
          simp [List.countP_cons, hmem]
        by_cases hle : r - 1 ≤ List.countP (fun v => decide (v ∈ hv)) vs
        · rw [if_pos hle, if_pos (by simp [hmem]; omega)]
        · rw [if_neg hle, if_neg (by simp [hmem]; omega)]
          congr 1
          simp [hmem]
          omega
    · rw [if_neg hmem, ih r hr]
      simp [hmem]

lemma loopSubexprs_eq (hv : Finset Nat) :
    ∀ (subs : List QuorumExpr) (r : Nat), r ≠ 0 →
      loopSubexprs hv subs r = decide (r ≤ countSat hv subs) := by
  intro subs
  induction subs with
  | nil =>
    intro r hr
    simp only [loopSubexprs, countSat, List.countP_nil]
    simp
    omega
  | cons e es ih =>
    intro r hr
    simp only [loopSubexprs, countSat, List.countP_cons] at *
    by_cases hsat : CheckQuorum e hv = true
    · rw [if_pos hsat]
      by_cases hr1 : r - 1 = 0
      · rw [if_pos hr1]
        simp [hsat]
        omega
      · rw [if_neg hr1, ih (r - 1) hr1]
        simp [hsat]
    · rw [if_neg hsat]
      rw [ih r hr]
      simp [hsat]

/-- The counting characterization of `CheckQuorum`: an expression is
satisfied iff its threshold is at most the number of its verifier entries
present in `hv` plus the number of its satisfied subexpressions. -/
lemma checkQuorum_eq_decide (e : QuorumExpr) (hv : Finset Nat) :
    CheckQuorum e hv =
      decide (e.threshold ≤
        countPresent hv e.verifiers + countSat hv e.subexpressions) := by
  obtain ⟨t, vs, subs⟩ := e
  simp only [CheckQuorum]
  by_cases ht : t = 0
  · subst ht
    simp
  · rw [if_neg ht, loopVerifiers_eq hv vs t ht]
    by_cases hle : t ≤ countPresent hv vs
    · rw [if_pos hle]
      have : t ≤ countPresent hv vs + countSat hv subs := by omega
      simp [this]
    · rw [if_neg hle]
      simp only
      rw [loopSubexprs_eq hv subs (t - countPresent hv vs) (by omega)]
      rw [decide_eq_decide]
      omega

lemma checkQuorum_zero (e : QuorumExpr) (hv : Finset Nat)
    (h : e.threshold = 0) : CheckQuorum e hv = true := by
  rw [checkQuorum_eq_decide, h]
  simp

lemma countSat_eq_countSatRef (hv : Finset Nat) (subs : List QuorumExpr)
    (ih : ∀ e ∈ subs, CheckQuorum e hv = SatisfiesRef e hv) :
    countSat hv subs = countSatRef hv subs := by
  induction subs with
  | nil => simp [countSat, countSatRef]
  | cons e es ihs =>
    have h1 : CheckQuorum e hv = SatisfiesRef e hv := ih e (by simp)
    have h2 : countSat hv es = countSatRef hv es :=
      ihs (fun x hx => ih x (by simp [hx]))
    simp only [countSat, countSatRef, List.countP_cons] at *
    rw [h2, h1]
    by_cases hs : SatisfiesRef e hv = true
    · simp [hs]
      omega
    · simp [hs]

lemma checkQuorum_eq_satisfiesRef :
    ∀ (e : QuorumExpr) (hv : Finset Nat), CheckQuorum e hv = SatisfiesRef e hv
  | ⟨t, vs, subs⟩, hv => by
    have ih : ∀ e ∈ subs, CheckQuorum e hv = SatisfiesRef e hv := by
      intro e he
      exact checkQuorum_eq_satisfiesRef e hv
    rw [checkQuorum_eq_decide]
    simp only [SatisfiesRef, countPresent]
    rw [countSat_eq_countSatRef hv subs ih]
termination_by e _ => sizeOf e
decreasing_by
  have := List.sizeOf_lt_of_mem he
  simp only [QuorumExpr.mk.sizeOf_spec]
  omega

lemma checkQuorum_mono_aux :
    ∀ (e : QuorumExpr) (hv hv' : Finset Nat), hv ⊆ hv' →
      CheckQuorum e hv = true → CheckQuorum e hv' = true
  | ⟨t, vs, subs⟩, hv, hv', hsub, h => by
    rw [checkQuorum_eq_decide] at h ⊢
    simp only [decide_eq_true_eq, countPresent, countSat] at h ⊢
    have h1 : vs.countP (fun v => decide (v ∈ hv)) ≤
        vs.countP (fun v => decide (v ∈ hv')) := by
      refine List.countP_mono_left (fun v _ hvv => ?_)
      simp only [decide_eq_true_eq] at hvv ⊢
      exact hsub hvv
    have h2 : subs.countP (fun s => CheckQuorum s hv) ≤
        subs.countP (fun s => CheckQuorum s hv') := by
      refine List.countP_mono_left (fun s hs hsat => ?_)
      exact checkQuorum_mono_aux s hv hv' hsub hsat
    omega
termination_by e _ _ _ _ => sizeOf e
decreasing_by
  have := List.sizeOf_lt_of_mem hs
  simp only [QuorumExpr.mk.sizeOf_spec]
  omega

lemma countPresent_nodup (hv : Finset Nat) (vs : List Nat) (hnd : vs.Nodup) :
    countPresent hv vs = (vs.toFinset ∩ hv).card := by
  induction vs with
  | nil => simp [countPresent]
  | cons v vs ih =>
    obtain ⟨hv1, hnd'⟩ := List.nodup_cons.mp hnd
    simp only [countPresent, List.countP_cons, List.toFinset_cons] at *
    rw [ih hnd']
    by_cases hmem : v ∈ hv
    · rw [Finset.insert_inter_of_mem hmem, Finset.card_insert_of_not_mem]
      · simp [hmem]
      · simp only [Finset.mem_inter, List.mem_toFinset, not_and]
        intro hcontra
        exact absurd hcontra hv1
    · rw [Finset.insert_inter_of_not_mem hmem]
      simp [hmem]

lemma insertVerifiers_eq (vs : List Nat) :
    ∀ out : Finset Nat, insertVerifiers vs out = out ∪ vs.toFinset := by
  induction vs with
  | nil => intro out; simp [insertVerifiers]
  | cons v vs ih =>
    intro out
    simp only [insertVerifiers, List.toFinset_cons]
    rw [ih]
    ext x
    simp


lemma listQuorumSubs_frame_of (subs : List QuorumExpr)
    (ih : ∀ e ∈ subs, ∀ out : Finset Nat,
      ListQuorum e out = out ∪ allVerifiers e) :
    ∀ out : Finset Nat, listQuorumSubs subs out = out ∪ allVerifiersList subs := by
  induction subs with
  | nil => intro out; simp [listQuorumSubs, allVerifiersList]
  | cons e es ihs =>
    intro out
    simp only [listQuorumSubs, allVerifiersList]
    rw [ih e (by simp), ihs (fun x hx out => ih x (by simp [hx]) out)]
    rw [Finset.union_assoc]

lemma listQuorum_frame :
    ∀ (e : QuorumExpr) (out : Finset Nat),
      ListQuorum e out = out ∪ allVerifiers e
  | ⟨t, vs, subs⟩, out => by
    have ih : ∀ e ∈ subs, ∀ out : Finset Nat,
        ListQuorum e out = out ∪ allVerifiers e := by
      intro e he out
      exact listQuorum_frame e out
    simp only [ListQuorum, allVerifiers]
    rw [insertVerifiers_eq, listQuorumSubs_frame_of subs ih]
    rw [Finset.union_assoc]
termination_by e _ => sizeOf e
decreasing_by
  have := List.sizeOf_lt_of_mem he
  simp only [QuorumExpr.mk.sizeOf_spec]
  omega

lemma takeBounded_append (m : Nat) :
    ∀ (es : List (List Nat)) (used : Nat),
      ∃ rest, takeBounded m es used ++ rest = es := by
  intro es
  induction es with
  | nil => intro used; exact ⟨[], rfl⟩
  | cons e es ih =>
    intro used
    simp only [takeBounded]
    by_cases hc : used + e.length ≤ m
    · rw [if_pos hc]
      obtain ⟨rest, hrest⟩ := ih (used + e.length)
      exact ⟨rest, by simp [hrest]⟩
    · rw [if_neg hc]
      exact ⟨e :: es, rfl⟩

lemma takeBounded_sum (m : Nat) :
    ∀ (es : List (List Nat)) (used : Nat),
      takeBounded m es used ≠ [] →
        used + ((takeBounded m es used).map List.length).sum ≤ m := by
  intro es
  induction es with
  | nil => intro used h; simp [takeBounded] at h
  | cons e es ih =>
    intro used h
    simp only [takeBounded] at h ⊢
    by_cases hc : used + e.length ≤ m
    · rw [if_pos hc]
      by_cases hne : takeBounded m es (used + e.length) = []
      · simp [hne]
        omega
      · have := ih (used + e.length) hne
        simp only [List.map_cons, List.sum_cons]
        omega
    · rw [if_neg hc] at h
      exact absurd rfl h

lemma takeBounded_maximal (m : Nat) :
    ∀ (es : List (List Nat)) (used : Nat) (rest : List (List Nat)),
      takeBounded m es used ++ rest = es → rest ≠ [] →
        m < used + ((takeBounded m es used).map List.length).sum +
          (rest.head?.getD []).length := by
  intro es
  induction es with
  | nil =>
    intro used rest h hne
    simp only [takeBounded, List.nil_append] at h
    exact absurd h hne
  | cons e es ih =>
    intro used rest h hne
    simp only [takeBounded] at h ⊢
    by_cases hc : used + e.length ≤ m
    · rw [if_pos hc] at h ⊢
      simp only [List.cons_append, List.cons.injEq] at h
      have := ih (used + e.length) rest h.2 hne
      simp only [List.map_cons, List.sum_cons]
      omega
    · rw [if_neg hc] at h ⊢
      simp only [List.nil_append] at h
      subst h
      simp
      omega

/-- C1: for every quorum expression whose threshold equals 0 and for every
presence set (including the empty set), `CheckQuorum` returns `true`,
whatever the `verifiers` and `subexpressions` fields hold (they are never
inspected: the result does not depend on them). -/
theorem checkQuorum_threshold_zero (e : QuorumExpr) (hv : Finset Nat)
    (h : e.threshold = 0) : CheckQuorum e hv = true :=
  checkQuorum_zero e hv h

theorem checkQuorum_threshold_zero_witness :
    CheckQuorum ⟨0, [5], [⟨1, [7], []⟩]⟩ (∅ : Finset Nat) = true :=
  checkQuorum_threshold_zero ⟨0, [5], [⟨1, [7], []⟩]⟩ ∅ rfl

/-- C2: the short-circuiting `CheckQuorum` returns the same boolean as the
reference non-short-circuiting `SatisfiesRef` (true iff the number of
verifier entries present plus the number of recursively satisfied
subexpressions reaches the threshold), and reordering the verifiers list
or the subexpressions list never changes the result. -/
theorem checkQuorum_refines_reference :
    (∀ (e : QuorumExpr) (hv : Finset Nat), CheckQuorum e hv = SatisfiesRef e hv) ∧
    (∀ (t : Nat) (vs vs' : List Nat) (subs subs' : List QuorumExpr)
      (hv : Finset Nat), List.Perm vs vs' → List.Perm subs subs' →
      CheckQuorum ⟨t, vs, subs⟩ hv = CheckQuorum ⟨t, vs', subs'⟩ hv) := by
  constructor
  · exact checkQuorum_eq_satisfiesRef
  · intro t vs vs' subs subs' hv hpv hps
    rw [checkQuorum_eq_decide, checkQuorum_eq_decide]
    simp only [countPresent, countSat]
    rw [decide_eq_decide]
    rw [List.Perm.countP_eq _ hpv, List.Perm.countP_eq _ hps]

theorem checkQuorum_refines_reference_witness :
    CheckQuorum ⟨1, [1, 2], []⟩ ({2} : Finset Nat) =
      SatisfiesRef ⟨1, [1, 2], []⟩ ({2} : Finset Nat) ∧
    CheckQuorum ⟨1, [1, 2], [⟨1, [3], []⟩]⟩ ({3} : Finset Nat) =
      CheckQuorum ⟨1, [2, 1], [⟨1, [3], []⟩]⟩ ({3} : Finset Nat) :=
  ⟨checkQuorum_refines_reference.1 ⟨1, [1, 2], []⟩ {2},
   checkQuorum_refines_reference.2 1 [1, 2] [2, 1] [⟨1, [3], []⟩]
     [⟨1, [3], []⟩] {3} (by decide) (List.Perm.refl _)⟩

/-- C3: for a leaf expression (no subexpressions) with pairwise-distinct
verifiers forming the set `V` and threshold `t ≤ |V|`, `CheckQuorum` is
true iff `|V ∩ have| ≥ t`. -/
theorem checkQuorum_leaf_iff_card_inter (t : Nat) (vs : List Nat)
    (hv : Finset Nat) (hnd : vs.Nodup) (ht : t ≤ vs.length) :
    (CheckQuorum ⟨t, vs, []⟩ hv = true ↔ t ≤ (vs.toFinset ∩ hv).card) := by
  rw [checkQuorum_eq_decide]
  show (decide (t ≤ countPresent hv vs + countSat hv []) = true ↔ _)
  rw [countPresent_nodup hv vs hnd]
  simp [countSat]

theorem checkQuorum_leaf_iff_card_inter_witness :
    (CheckQuorum ⟨1, [1, 2], []⟩ ({2} : Finset Nat) = true ↔
      1 ≤ (([1, 2] : List Nat).toFinset ∩ ({2} : Finset Nat)).card) :=
  checkQuorum_leaf_iff_card_inter 1 [1, 2] {2} (by decide) (by decide)

/-- C4: occurrences of the same verifier at different places in the tree
are counted independently: with threshold 2, the verifier `v` listed
directly and again inside a sub-expression of threshold 1, the presence
set `{v}` alone satisfies the expression. -/
theorem checkQuorum_counts_duplicates (v : Nat) :
    CheckQuorum ⟨2, [v], [⟨1, [v], []⟩]⟩ ({v} : Finset Nat) = true := by
  simp [CheckQuorum, loopVerifiers, loopSubexprs]

/-- C5: `ListQuorum` called with the empty accumulator (the Go `nil` map
branch allocates a fresh empty map) returns exactly the set of all
verifier ids appearing in the `verifiers` list of the expression or of
any sub-expression at any nesting depth, duplicates collapsed. -/
theorem listQuorum_nil_collects_all (e : QuorumExpr) :
    ListQuorum e ∅ = allVerifiers e := by
  rw [listQuorum_frame]
  simp

/-- C6: an expression whose threshold exceeds the number of its verifier
entries plus the number of its subexpressions is never satisfied; in
particular threshold > 0 with empty verifiers and subexpressions is never
satisfied. -/
theorem checkQuorum_threshold_too_large (e : QuorumExpr) (hv : Finset Nat)
    (h : e.verifiers.length + e.subexpressions.length < e.threshold) :
    CheckQuorum e hv = false := by
  rw [checkQuorum_eq_decide]
  have h1 : countPresent hv e.verifiers ≤ e.verifiers.length :=
    List.countP_le_length _
  have h2 : countSat hv e.subexpressions ≤ e.subexpressions.length :=
    List.countP_le_length _
  simp only [decide_eq_false_iff_not]
  omega

theorem checkQuorum_threshold_too_large_witness :
    CheckQuorum ⟨1, [], []⟩ (∅ : Finset Nat) = false :=
  checkQuorum_threshold_too_large ⟨1, [], []⟩ ∅ (by decide)

/-- C7: the modelled `GetCommitted` contract: the result is a prefix of
the committed entries of `[lo, hi)` (so it starts exactly at index `lo`,
is consecutive, and stays strictly below `hi`); it is nonempty whenever
some committed entry lies in `[lo, hi)` (even if that single entry alone
exceeds `maxSize`); when at least two entries are returned the total byte
size is within `maxSize`; and it stops exactly when the next available
entry would push the cumulative byte size beyond `maxSize`. -/
theorem getCommitted_contract (log : List (List Nat)) (lo hi maxSize : Nat) :
    (∃ rest, getCommitted log lo hi maxSize ++ rest = (log.take hi).drop lo) ∧
    ((log.take hi).drop lo ≠ [] → getCommitted log lo hi maxSize ≠ []) ∧
    (lo < hi → (getCommitted log lo hi maxSize).head? = log[lo]?) ∧
    (2 ≤ (getCommitted log lo hi maxSize).length →
      ((getCommitted log lo hi maxSize).map List.length).sum ≤ maxSize) ∧
    (∀ rest, getCommitted log lo hi maxSize ++ rest = (log.take hi).drop lo →
      rest ≠ [] →
      maxSize < ((getCommitted log lo hi maxSize).map List.length).sum +
        (rest.head?.getD []).length) := by
  rcases hw : (log.take hi).drop lo with - | ⟨first, rest0⟩
  · have hres : getCommitted log lo hi maxSize = [] := by
      simp [getCommitted, hw]
    refine ⟨⟨[], by simp [hres, hw]⟩, ?_, ?_, ?_, ?_⟩
    · intro hcontra; exact absurd rfl hcontra
    · intro hlh
      rw [hres]
      have hlen : (log.take hi).length ≤ lo := List.drop_eq_nil_iff.mp hw
      rw [List.length_take] at hlen
      have : log.length ≤ lo := by omega
      rw [List.getElem?_eq_none this]
      rfl
    · intro hlen
      rw [hres] at hlen
      simp at hlen
    · intro rest h hne
      rw [hres, List.nil_append] at h
      exact absurd h hne
  · have hres : getCommitted log lo hi maxSize =
        first :: takeBounded maxSize rest0 first.length := by
      simp [getCommitted, hw]
    refine ⟨?_, ?_, ?_, ?_, ?_⟩
    · obtain ⟨rest, hrest⟩ := takeBounded_append maxSize rest0 first.length
      exact ⟨rest, by simp [hres, hw, hrest]⟩
    · intro _
      simp [hres]
    · intro hlh
      rw [hres]
      have h1 : ((log.take hi).drop lo).head? = (log.take hi)[lo]? :=
        List.head?_drop _ _
      rw [hw] at h1
      rw [List.getElem?_take] at h1
      rw [if_pos hlh] at h1
      simp only [List.head?_cons] at h1 ⊢
      exact h1
    · intro hlen
      rw [hres] at hlen ⊢
      have hne : takeBounded maxSize rest0 first.length ≠ [] := by
        intro hc
        rw [hc] at hlen
        simp at hlen
      have := takeBounded_sum maxSize rest0 first.length hne
      simp only [List.map_cons, List.sum_cons]
      omega
    · intro rest h hne
      rw [hres] at h ⊢
      simp only [List.cons_append, List.cons.injEq] at h
      have := takeBounded_maximal maxSize rest0 first.length rest h.2 hne
      simp only [List.map_cons, List.sum_cons]
      omega

theorem getCommitted_contract_witness :
    getCommitted [List.replicate 50 0] 0 3 10 = [List.replicate 50 0] ∧
    getCommitted [List.replicate 50 0] 0 3 10 ≠ [] :=
  ⟨rfl, (getCommitted_contract [List.replicate 50 0] 0 3 10).2.1 (by decide)⟩

/-- C8: `CheckQuorum` is monotone in the presence set: enlarging the set
of ratifying verifiers never un-satisfies a policy. -/
theorem checkQuorum_monotone (e : QuorumExpr) (hv hv' : Finset Nat)
    (hsub : hv ⊆ hv') (h : CheckQuorum e hv = true) :
    CheckQuorum e hv' = true :=
  checkQuorum_mono_aux e hv hv' hsub h

theorem checkQuorum_monotone_witness :
    CheckQuorum ⟨1, [1], []⟩ ({1, 2} : Finset Nat) = true :=
  checkQuorum_monotone ⟨1, [1], []⟩ {1} {1, 2} (by decide)
    (by simp [CheckQuorum, loopVerifiers])

/-- C9: a sub-expression with threshold 0 counts as one satisfied unit
even against the empty presence set: if at least `t` subexpressions have
threshold 0, an expression with threshold `t > 0` is satisfied by every
presence set, including the empty one. -/
theorem checkQuorum_zero_threshold_subexprs (t : Nat) (vs : List Nat)
    (subs : List QuorumExpr) (hv : Finset Nat) (ht : 0 < t)
    (hsubs : t ≤ subs.countP (fun s => decide (s.threshold = 0))) :
    CheckQuorum ⟨t, vs, subs⟩ hv = true := by
  rw [checkQuorum_eq_decide]
  have h1 : subs.countP (fun s => decide (s.threshold = 0)) ≤
      subs.countP (fun s => CheckQuorum s hv) := by
    refine List.countP_mono_left (fun s _ hzero => ?_)
    simp only [decide_eq_true_eq] at hzero
    exact checkQuorum_zero s hv hzero
  show (decide (t ≤ countPresent hv vs + countSat hv subs) = true)
  simp only [countSat, decide_eq_true_eq]
  omega

theorem checkQuorum_zero_threshold_subexprs_witness :
    CheckQuorum ⟨2, [], [⟨0, [], []⟩, ⟨0, [9], []⟩]⟩ (∅ : Finset Nat) = true :=
  checkQuorum_zero_threshold_subexprs 2 [] [⟨0, [], []⟩, ⟨0, [9], []⟩] ∅
    (by decide) (by decide)

/-- C10: `ListQuorum` with a non-empty accumulator returns the accumulator
extended by all verifier ids appearing anywhere in the tree: every
pre-existing element is kept, and the result is exactly the union of the
accumulator and the tree's verifiers. -/
theorem listQuorum_accumulator_frame (e : QuorumExpr) (out : Finset Nat) :
    out ⊆ ListQuorum e out ∧ ListQuorum e out = out ∪ allVerifiers e := by
  constructor
  · rw [listQuorum_frame]
    exact Finset.subset_union_left
  · exact listQuorum_frame e out
